import Mathlib

/-!
Verification of the line-framing core of serial_samples.py.

The external byte source (a BinaryIO handle) is modelled as an explicit
trace of environment events.  The accumulation loop of
check_incomplete_line interacts with the handle once per iteration
(a readable() query, then possibly a read(1) and up to two time.time()
calls), so one loop iteration consumes one Step of the trace.  The
boundary synchronizer interacts through readline(4096), modelled as a
list of chunks.  Machine bytes are Nat values; clock readings are Int.
-/

namespace SerialSamples

/-- A byte of the stream. -/
abbrev Byte := Nat

/-- One environment event for one iteration of the accumulation loop of
check_incomplete_line: the answer of handle.readable(), the result of
handle.read(1) (none models the empty bytes object), and the clock
values returned by time.time() at the two call sites (line 74 sets the
deadline, line 78 checks it); a field is simply unused when the code
does not reach the corresponding call. -/
structure Step where
  readable : Bool
  chunk : Option Byte
  tRead : Int
  tCheck : Int
deriving DecidableEq, Repr

/-- The bytes object returned by handle.read(1): empty or a single byte. -/
def chunkBytes : Option Byte → List Byte
  | none => []
  | some b => [b]

/-- Result of one iteration of the accumulation loop body: either the
function returns (with a complete line or the None sentinel), or the
loop continues with the updated buffer and deadline. -/
inductive StepOut where
  | ret (r : Option (List Byte))
  | cont (line : List Byte) (endTime : Option Int)
deriving DecidableEq, Repr

/-- One iteration of the loop body of check_incomplete_line
(src/serial_samples.py lines 71-80), for a buffer that is still below
max_line_length.  Mirrors: if handle.readable(): read one byte, set
end_time on the first read if unset, append, return the line on a
newline byte, return None when the clock reached end_time; otherwise
the iteration does nothing. -/
def acquireStep (timeout : Int) (s : Step) (line : List Byte)
    (endTime : Option Int) : StepOut :=
  if s.readable then
    let et := endTime.getD (s.tRead + timeout)
    let line2 := line ++ chunkBytes s.chunk
    if s.chunk = some 10 then StepOut.ret (some line2)
    else if et ≤ s.tCheck then StepOut.ret none
    else StepOut.cont line2 (some et)
  else StepOut.cont line endTime

/-- Embeds check_incomplete_line (src/serial_samples.py lines 65-80).
The loop runs while the buffer is shorter than max_line_length; when
the condition fails the Python function falls off the end and returns
None.  The first component is none when the trace is exhausted with the
loop still running, some r when the function returned r; the second
component is the unconsumed remainder of the trace. -/
def checkIncompleteLine (timeout : Int) (maxLen : Nat) :
    List Step → List Byte → Option Int →
      Option (Option (List Byte)) × List Step
  | [], line, _ =>
    if line.length < maxLen then (none, []) else (some none, [])
  | s :: rest, line, et =>
    if line.length < maxLen then
      match acquireStep timeout s line et with
      | StepOut.ret r => (some r, rest)
      | StepOut.cont line2 et2 => checkIncompleteLine timeout maxLen rest line2 et2
    else (some none, s :: rest)

/-- The sequence of (buffer, deadline) states observed at the top of the
accumulation loop of check_incomplete_line, starting from the given
state, along the given trace. -/
def accStates (timeout : Int) (maxLen : Nat) :
    List Step → List Byte → Option Int → List (List Byte × Option Int)
  | [], line, et => [(line, et)]
  | s :: rest, line, et =>
    (line, et) ::
      (if line.length < maxLen then
        match acquireStep timeout s line et with
        | StepOut.ret _ => []
        | StepOut.cont line2 et2 => accStates timeout maxLen rest line2 et2
      else [])

/-- The ASCII whitespace bytes stripped by bytes.rstrip() with no
argument: tab, newline, vertical tab, form feed, carriage return,
space. -/
def isSpaceByte (b : Byte) : Bool :=
  b = 9 || b = 10 || b = 11 || b = 12 || b = 13 || b = 32

/-- Python bytes.rstrip(): removes trailing ASCII whitespace. -/
def pyRstrip (l : List Byte) : List Byte :=
  (l.reverse.dropWhile isSpaceByte).reverse

/-- Terminal status of a finite run of the producer loop: running when
the iteration budget is exhausted, blocked when the byte trace ran out
inside the accumulator, overflow when LineOverflowError was raised with
the given line. -/
inductive Outcome where
  | running
  | blocked
  | overflow (line : List Byte)
deriving DecidableEq, Repr

/-- Whether the outcome is a raised LineOverflowError. -/
def Outcome.isOverflow : Outcome → Bool
  | Outcome.overflow _ => true
  | _ => false

/-- A finite observation of the producer: the yielded records in order,
and the terminal status. -/
structure Run where
  yields : List (List Byte)
  outcome : Outcome
deriving DecidableEq, Repr

/-- Embeds the while-loop of the shadowing SerialLines generator
(src/serial_samples.py lines 88-97): call check_incomplete_line; on the
None sentinel continue; on a line not ending in a newline raise
LineOverflowError; otherwise yield the rstripped line.  fuel bounds the
number of loop iterations observed. -/
def serialLinesLoop (timeout : Int) (maxLen : Nat) :
    Nat → List Step → List (List Byte) → Run
  | 0, _, acc => ⟨acc.reverse, Outcome.running⟩
  | fuel + 1, steps, acc =>
    match checkIncompleteLine timeout maxLen steps [] none with
    | (none, _) => ⟨acc.reverse, Outcome.blocked⟩
    | (some none, rest) => serialLinesLoop timeout maxLen fuel rest acc
    | (some (some l), rest) =>
      if l.getLast? = some 10 then
        serialLinesLoop timeout maxLen fuel rest (pyRstrip l :: acc)
      else ⟨acc.reverse, Outcome.overflow l⟩

/-- Embeds SkipUntilNewLine (src/serial_samples.py lines 26-33).  Each
element of chunks is the result of one handle.readline(4096) call; the
loop stops at the first chunk ending with a newline byte.  Returns the
unconsumed chunks, or none when the trace is exhausted with the loop
still spinning. -/
def skipUntilNewLine : List (List Byte) → Option (List (List Byte))
  | [] => none
  | c :: rest => if c.getLast? = some 10 then some rest else skipUntilNewLine rest

/-- Embeds the shadowing SerialLines generator (src/serial_samples.py
lines 82-97): run SkipUntilNewLine on the chunk trace, then the
accumulation loop on the step trace.  none when synchronization never
finished within the chunk trace. -/
def serialLines (timeout : Int) (maxLen : Nat) (chunks : List (List Byte))
    (steps : List Step) (fuel : Nat) : Option Run :=
  match skipUntilNewLine chunks with
  | none => none
  | some _ => some (serialLinesLoop timeout maxLen fuel steps [])

/-- handle.readline(cap) on an ideal blocking handle over a concrete
byte stream: consumes bytes up to cap, stopping after a newline byte;
returns the line read and the remaining stream. -/
def readlineCap : Nat → List Byte → List Byte × List Byte
  | 0, s => ([], s)
  | _ + 1, [] => ([], [])
  | n + 1, b :: rest =>
    if b = 10 then ([10], rest)
    else
      let p := readlineCap n rest
      (b :: p.1, p.2)

/-- Embeds the while-loop of the earlier readline-based SerialLines
(src/serial_samples.py lines 50-63): line = handle.readline(max);
raise LineOverflowError unless it ends with a newline; else yield the
rstripped line. -/
def serialLinesOld (maxLen : Nat) : Nat → List Byte → List (List Byte) → Run
  | 0, _, acc => ⟨acc.reverse, Outcome.running⟩
  | fuel + 1, stream, acc =>
    let p := readlineCap maxLen stream
    if p.1.getLast? = some 10 then
      serialLinesOld maxLen fuel p.2 (pyRstrip p.1 :: acc)
    else ⟨acc.reverse, Outcome.overflow p.1⟩

/-- A step trace delivering the given bytes one per iteration, each
immediately available at clock value 0. -/
def promptSteps (bs : List Byte) : List Step :=
  bs.map (fun b => ⟨true, some b, 0, 0⟩)

/-- The step trace ss delivers exactly the bytes bs, one byte per
iteration, with every deadline check that happens before the final byte
strictly below the clock value d.  The final byte of a line is the
newline, after which the code returns without checking the clock, so no
bound is put on the last step. -/
def deliversWithin (d : Int) : List Step → List Byte → Bool
  | [], [] => true
  | s :: ss, b :: bs =>
    s.readable && (s.chunk == some b) &&
      (bs.isEmpty || decide (s.tCheck < d)) && deliversWithin d ss bs
  | _, _ => false

/-- The step trace ss delivers the bytes bs of one whole line: the
first step sets the deadline to its own read time plus timeout, and
every check before the final byte beats that fixed deadline. -/
def deliversLine (timeout : Int) : List Step → List Byte → Bool
  | s :: ss, b :: bs =>
    s.readable && (s.chunk == some b) &&
      (bs.isEmpty || decide (s.tCheck < s.tRead + timeout)) &&
      deliversWithin (s.tRead + timeout) ss bs
  | _, _ => false

/-- A timed line: a step trace paired with the bytes it carries, where
the bytes form one well-shaped line (newline exactly at the end), fit
in max_line_length, and arrive before the fixed deadline of the line. -/
def wellTimedLine (timeout : Int) (maxLen : Nat)
    (p : List Step × List Byte) : Bool :=
  deliversLine timeout p.1 p.2 && (p.2.getLast? == some 10) &&
    p.2.dropLast.all (fun b => !(b == 10)) && decide (p.2.length ≤ maxLen)

/-- A well-shaped stored line: ends with the newline byte, contains no
interior newline, and fits in max_line_length. -/
def WfLine (maxLen : Nat) (l : List Byte) : Prop :=
  l.getLast? = some 10 ∧ (∀ b ∈ l.dropLast, b ≠ 10) ∧ l.length ≤ maxLen

end SerialSamples

namespace SerialSamples

lemma chunkBytes_length (c : Option Byte) : (chunkBytes c).length ≤ 1 := by
  cases c <;> simp [chunkBytes]

lemma getLast?_cons_of_ne_nil {α : Type} {b : α} {l : List α} (h : l ≠ []) :
    (b :: l).getLast? = l.getLast? := by
  rcases l with _ | ⟨c, l2⟩
  · exact absurd rfl h
  · exact List.getLast?_cons_cons

lemma acquireStep_ret_some (timeout : Int) (s : Step) (line : List Byte)
    (et : Option Int) (l : List Byte)
    (h : acquireStep timeout s line et = StepOut.ret (some l)) :
    s.chunk = some 10 ∧ l = line ++ [10] := by
  simp only [acquireStep] at h
  split at h
  · split at h
    · rename_i hc
      refine ⟨hc, ?_⟩
      rw [hc] at h
      simp only [chunkBytes, StepOut.ret.injEq, Option.some.injEq] at h
      exact h.symm
    · split at h <;> simp_all
  · simp_all

lemma acquireStep_cont (timeout : Int) (s : Step) (line : List Byte)
    (et : Option Int) (line2 : List Byte) (et2 : Option Int)
    (h : acquireStep timeout s line et = StepOut.cont line2 et2) :
    (s.readable = false ∧ line2 = line ∧ et2 = et) ∨
    (s.readable = true ∧ line2 = line ++ chunkBytes s.chunk ∧
      et2 = some (et.getD (s.tRead + timeout))) := by
  simp only [acquireStep] at h
  split at h
  · right
    split at h
    · simp_all
    · split at h
      · simp_all
      · rename_i hr _ _
        simp only [StepOut.cont.injEq] at h
        exact ⟨hr, h.1.symm, h.2.symm⟩
  · left
    rename_i hr
    simp only [StepOut.cont.injEq] at h
    exact ⟨Bool.not_eq_true _ ▸ eq_false_of_ne_true hr, h.1.symm, h.2.symm⟩

end SerialSamples

namespace SerialSamples

lemma checkIncompleteLine_ret_last (timeout : Int) (maxLen : Nat) :
    ∀ (steps : List Step) (line : List Byte) (et : Option Int)
      (l : List Byte) (rest : List Step),
      checkIncompleteLine timeout maxLen steps line et = (some (some l), rest) →
      l.getLast? = some 10
  | [], line, et, l, rest => by
    simp only [checkIncompleteLine]
    split <;> simp
  | s :: ss, line, et, l, rest => by
    simp only [checkIncompleteLine]
    split
    · rcases hA : acquireStep timeout s line et with r | ⟨line2, et2⟩
      · intro h
        simp only [Prod.mk.injEq, Option.some.injEq] at h
        obtain ⟨h1, -⟩ := h
        subst h1
        obtain ⟨-, h3⟩ := acquireStep_ret_some timeout s line et l hA
        subst h3
        exact List.getLast?_concat line
      · exact checkIncompleteLine_ret_last timeout maxLen ss line2 et2 l rest
    · simp

lemma checkIncompleteLine_ret_len (timeout : Int) (maxLen : Nat) :
    ∀ (steps : List Step) (line : List Byte) (et : Option Int)
      (l : List Byte) (rest : List Step),
      line.length ≤ maxLen →
      checkIncompleteLine timeout maxLen steps line et = (some (some l), rest) →
      l.length ≤ maxLen
  | [], line, et, l, rest => by
    intro hlen
    simp only [checkIncompleteLine]
    split <;> simp
  | s :: ss, line, et, l, rest => by
    intro hlen
    simp only [checkIncompleteLine]
    split
    · rename_i hlt
      rcases hA : acquireStep timeout s line et with r | ⟨line2, et2⟩
      · intro h
        simp only [Prod.mk.injEq, Option.some.injEq] at h
        obtain ⟨h1, -⟩ := h
        subst h1
        obtain ⟨-, h3⟩ := acquireStep_ret_some timeout s line et l hA
        subst h3
        simp only [List.length_append, List.length_cons, List.length_nil]
        omega
      · have hlen2 : line2.length ≤ maxLen := by
          rcases acquireStep_cont timeout s line et line2 et2 hA with
            ⟨-, rfl, -⟩ | ⟨-, rfl, -⟩
          · exact hlen
          · have := chunkBytes_length s.chunk
            simp only [List.length_append]
            omega
        exact checkIncompleteLine_ret_len timeout maxLen ss line2 et2 l rest hlen2
    · simp

lemma accStates_inv (timeout : Int) (maxLen : Nat)
    (P : List Byte → Option Int → Prop) (steps : List Step) :
    ∀ (line : List Byte) (et : Option Int),
      P line et →
      (∀ s ∈ steps, ∀ lineA etA lineB etB, P lineA etA → lineA.length < maxLen →
        acquireStep timeout s lineA etA = StepOut.cont lineB etB → P lineB etB) →
      ∀ st ∈ accStates timeout maxLen steps line et, P st.1 st.2 := by
  induction steps with
  | nil =>
    intro line et hP _ st hst
    simp only [accStates, List.mem_singleton] at hst
    subst hst
    exact hP
  | cons s ss ih =>
    intro line et hP hstep st hst
    simp only [accStates, List.mem_cons] at hst
    rcases hst with h | h
    · subst h
      exact hP
    · by_cases hlen : line.length < maxLen
      · rw [if_pos hlen] at h
        rcases hA : acquireStep timeout s line et with r | ⟨line2, et2⟩
        · rw [hA] at h
          simp at h
        · rw [hA] at h
          exact ih line2 et2
            (hstep s (List.mem_cons_self s ss) line et line2 et2 hP hlen hA)
            (fun s2 hs2 => hstep s2 (List.mem_cons_of_mem s hs2)) st h
      · rw [if_neg hlen] at h
        simp at h

lemma serialLinesLoop_no_overflow (timeout : Int) (maxLen : Nat) :
    ∀ (fuel : Nat) (steps : List Step) (acc : List (List Byte)),
      ((serialLinesLoop timeout maxLen fuel steps acc).outcome).isOverflow = false := by
  intro fuel
  induction fuel with
  | zero => intro steps acc; rfl
  | succ n ih =>
    intro steps acc
    simp only [serialLinesLoop]
    rcases hck : checkIncompleteLine timeout maxLen steps [] none with ⟨r, rest⟩
    rcases r with _ | r2
    · rfl
    · rcases r2 with _ | l
      · exact ih rest acc
      · have hl : l.getLast? = some 10 :=
          checkIncompleteLine_ret_last timeout maxLen steps [] none l rest hck
        show (if l.getLast? = some 10 then
            serialLinesLoop timeout maxLen n rest (pyRstrip l :: acc)
          else ⟨acc.reverse, Outcome.overflow l⟩).outcome.isOverflow = false
        rw [if_pos hl]
        exact ih rest (pyRstrip l :: acc)

end SerialSamples

namespace SerialSamples

lemma deliversWithin_cons (d : Int) (s : Step) (ss : List Step)
    (b : Byte) (bs : List Byte)
    (h : deliversWithin d (s :: ss) (b :: bs) = true) :
    s.readable = true ∧ s.chunk = some b ∧ (bs = [] ∨ s.tCheck < d) ∧
      deliversWithin d ss bs = true := by
  simp only [deliversWithin, Bool.and_eq_true, Bool.or_eq_true, beq_iff_eq,
    decide_eq_true_eq, List.isEmpty_iff] at h
  exact ⟨h.1.1.1, h.1.1.2, h.1.2, h.2⟩

lemma deliversWithin_nil_right (d : Int) (ss : List Step)
    (h : deliversWithin d ss [] = true) : ss = [] := by
  cases ss with
  | nil => rfl
  | cons s ss2 =>
    rw [show deliversWithin d (s :: ss2) [] = false from rfl] at h
    exact absurd h (by simp)

lemma completes_tail (timeout : Int) (maxLen : Nat) (d : Int) :
    ∀ (bs : List Byte) (ss rest : List Step) (acc : List Byte),
      deliversWithin d ss bs = true →
      bs.getLast? = some 10 →
      (∀ b ∈ bs.dropLast, b ≠ 10) →
      acc.length + bs.length ≤ maxLen →
      checkIncompleteLine timeout maxLen (ss ++ rest) acc (some d) =
        (some (some (acc ++ bs)), rest) := by
  intro bs
  induction bs with
  | nil =>
    intro ss rest acc _ hLast _ _
    simp at hLast
  | cons b bs2 ih =>
    intro ss rest acc hDel hLast hMid hLen
    cases ss with
    | nil =>
      rw [show deliversWithin d [] (b :: bs2) = false from rfl] at hDel
      exact absurd hDel (by simp)
    | cons s ss2 =>
      obtain ⟨hread, hchunk, hcheck, hDel2⟩ := deliversWithin_cons d s ss2 b bs2 hDel
      have hlt : acc.length < maxLen := by
        simp only [List.length_cons] at hLen
        omega
      simp only [List.cons_append, checkIncompleteLine, if_pos hlt]
      by_cases hb : b = 10
      · subst hb
        have hbs2 : bs2 = [] := by
          by_contra hne
          exact hMid 10
            (by
              rw [List.dropLast_cons_of_ne_nil hne]
              exact List.mem_cons_self 10 bs2.dropLast) rfl
        subst hbs2
        have hss2 : ss2 = [] := deliversWithin_nil_right d ss2 hDel2
        subst hss2
        have hA : acquireStep timeout s acc (some d) =
            StepOut.ret (some (acc ++ [10])) := by
          simp [acquireStep, hread, hchunk, chunkBytes]
        rw [hA]
        rfl
      · have hbs2 : bs2 ≠ [] := by
          intro h0
          subst h0
          simp only [List.getLast?_singleton, Option.some.injEq] at hLast
          exact hb hLast
        have hcheck2 : s.tCheck < d := by
          rcases hcheck with h0 | h0
          · exact absurd h0 hbs2
          · exact h0
        have hA : acquireStep timeout s acc (some d) =
            StepOut.cont (acc ++ [b]) (some d) := by
          simp [acquireStep, hread, hchunk, chunkBytes, hb, not_le.mpr hcheck2]
        rw [hA]
        show checkIncompleteLine timeout maxLen (ss2 ++ rest) (acc ++ [b]) (some d) =
          (some (some (acc ++ b :: bs2)), rest)
        have hrec := ih ss2 rest (acc ++ [b]) hDel2
          (by rw [← getLast?_cons_of_ne_nil (b := b) hbs2]; exact hLast)
          (fun x hx => hMid x
            (by
              rw [List.dropLast_cons_of_ne_nil hbs2]
              exact List.mem_cons_of_mem b hx))
          (by
            simp only [List.length_append, List.length_cons, List.length_nil] at hLen ⊢
            omega)
        rw [hrec]
        simp

lemma line_completes (timeout : Int) (maxLen : Nat)
    (bs : List Byte) (ss rest : List Step)
    (hDel : deliversLine timeout ss bs = true)
    (hLast : bs.getLast? = some 10)
    (hMid : ∀ b ∈ bs.dropLast, b ≠ 10)
    (hLen : bs.length ≤ maxLen) :
    checkIncompleteLine timeout maxLen (ss ++ rest) [] none =
      (some (some bs), rest) := by
  cases ss with
  | nil =>
    cases bs with
    | nil => simp at hLast
    | cons b bs2 =>
      rw [show deliversLine timeout [] (b :: bs2) = false from rfl] at hDel
      exact absurd hDel (by simp)
  | cons s ss2 =>
    cases bs with
    | nil => simp at hLast
    | cons b bs2 =>
      have hDel' : s.readable = true ∧ s.chunk = some b ∧
          (bs2 = [] ∨ s.tCheck < s.tRead + timeout) ∧
          deliversWithin (s.tRead + timeout) ss2 bs2 = true := by
        simp only [deliversLine, Bool.and_eq_true, Bool.or_eq_true, beq_iff_eq,
          decide_eq_true_eq, List.isEmpty_iff] at hDel
        exact ⟨hDel.1.1.1, hDel.1.1.2, hDel.1.2, hDel.2⟩
      obtain ⟨hread, hchunk, hcheck, hDel2⟩ := hDel'
      have hlt : (0 : Nat) < maxLen := by
        simp only [List.length_cons] at hLen
        omega
      simp only [List.cons_append, checkIncompleteLine]
      rw [if_pos (by simpa using hlt)]
      by_cases hb : b = 10
      · subst hb
        have hbs2 : bs2 = [] := by
          by_contra hne
          exact hMid 10
            (by
              rw [List.dropLast_cons_of_ne_nil hne]
              exact List.mem_cons_self 10 bs2.dropLast) rfl
        subst hbs2
        have hss2 : ss2 = [] := deliversWithin_nil_right _ ss2 hDel2
        subst hss2
        have hA : acquireStep timeout s [] none = StepOut.ret (some [10]) := by
          simp [acquireStep, hread, hchunk, chunkBytes]
        rw [hA]
        rfl
      · have hbs2 : bs2 ≠ [] := by
          intro h0
          subst h0
          simp only [List.getLast?_singleton, Option.some.injEq] at hLast
          exact hb hLast
        have hcheck2 : s.tCheck < s.tRead + timeout := by
          rcases hcheck with h0 | h0
          · exact absurd h0 hbs2
          · exact h0
        have hA : acquireStep timeout s [] none =
            StepOut.cont [b] (some (s.tRead + timeout)) := by
          simp [acquireStep, hread, hchunk, chunkBytes, hb, not_le.mpr hcheck2]
        rw [hA]
        show checkIncompleteLine timeout maxLen (ss2 ++ rest) [b]
            (some (s.tRead + timeout)) = (some (some (b :: bs2)), rest)
        have hrec := completes_tail timeout maxLen (s.tRead + timeout) bs2 ss2 rest [b]
          hDel2
          (by rw [← getLast?_cons_of_ne_nil (b := b) hbs2]; exact hLast)
          (fun x hx => hMid x
            (by
              rw [List.dropLast_cons_of_ne_nil hbs2]
              exact List.mem_cons_of_mem b hx))
          (by
            simp only [List.length_cons, List.length_singleton, List.length_nil] at hLen ⊢
            omega)
        rw [hrec]
        simp

end SerialSamples

namespace SerialSamples

lemma serialLinesLoop_yields (timeout : Int) (maxLen : Nat) :
    ∀ (tl : List (List Step × List Byte)) (acc : List (List Byte)),
      (∀ p ∈ tl, wellTimedLine timeout maxLen p = true) →
      serialLinesLoop timeout maxLen tl.length ((tl.map Prod.fst).flatten) acc =
        ⟨acc.reverse ++ tl.map (fun p => pyRstrip p.2), Outcome.running⟩ := by
  intro tl
  induction tl with
  | nil =>
    intro acc _
    simp [serialLinesLoop]
  | cons p tl2 ih =>
    intro acc h
    have hp := h p (List.mem_cons_self p tl2)
    simp only [wellTimedLine, Bool.and_eq_true, beq_iff_eq, List.all_eq_true,
      Bool.not_eq_eq_eq_not, Bool.not_true, beq_eq_false_iff_ne, ne_eq,
      decide_eq_true_eq] at hp
    obtain ⟨⟨⟨hDel, hLast⟩, hMid⟩, hLen⟩ := hp
    have hck := line_completes timeout maxLen p.2 p.1 ((tl2.map Prod.fst).flatten)
      hDel hLast hMid hLen
    simp only [List.length_cons, List.map_cons, List.flatten_cons, serialLinesLoop]
    rw [hck]
    show (if p.2.getLast? = some 10 then
        serialLinesLoop timeout maxLen tl2.length ((tl2.map Prod.fst).flatten)
          (pyRstrip p.2 :: acc)
      else ⟨acc.reverse, Outcome.overflow p.2⟩) =
      ⟨acc.reverse ++ pyRstrip p.2 :: tl2.map (fun q => pyRstrip q.2), Outcome.running⟩
    rw [if_pos hLast, ih (pyRstrip p.2 :: acc) (fun q hq => h q (List.mem_cons_of_mem p hq))]
    simp

lemma skipUntilNewLine_spec :
    ∀ (pre : List (List Byte)) (c : List Byte) (post : List (List Byte)),
      (∀ d ∈ pre, d.getLast? ≠ some 10) →
      c.getLast? = some 10 →
      skipUntilNewLine (pre ++ c :: post) = some post := by
  intro pre
  induction pre with
  | nil =>
    intro c post _ hc
    simp [skipUntilNewLine, hc]
  | cons d pre2 ih =>
    intro c post hpre hc
    simp only [List.cons_append, skipUntilNewLine]
    rw [if_neg (hpre d (List.mem_cons_self d pre2))]
    exact ih c post (fun x hx => hpre x (List.mem_cons_of_mem d hx)) hc

lemma flatten_concat_getLast (pre : List (List Byte)) (c : List Byte)
    (hc : c.getLast? = some 10) :
    ((pre ++ [c]).flatten).getLast? = some 10 := by
  rw [List.flatten_append]
  simp only [List.flatten_cons, List.flatten_nil, List.append_nil]
  rw [List.getLast?_append, hc]
  rfl

lemma readlineCap_spec :
    ∀ (l : List Byte) (rest : List Byte) (maxLen : Nat),
      l.getLast? = some 10 →
      (∀ b ∈ l.dropLast, b ≠ 10) →
      l.length ≤ maxLen →
      readlineCap maxLen (l ++ rest) = (l, rest) := by
  intro l
  induction l with
  | nil =>
    intro rest maxLen h _ _
    simp at h
  | cons b l2 ih =>
    intro rest maxLen hLast hMid hLen
    obtain ⟨n, rfl⟩ : ∃ n, maxLen = n + 1 :=
      ⟨maxLen - 1, by simp only [List.length_cons] at hLen; omega⟩
    simp only [List.cons_append, readlineCap]
    by_cases hb : b = 10
    · subst hb
      have hl2 : l2 = [] := by
        by_contra hne
        exact hMid 10
          (by
            rw [List.dropLast_cons_of_ne_nil hne]
            exact List.mem_cons_self 10 l2.dropLast) rfl
      subst hl2
      rw [if_pos rfl]
      rfl
    · rw [if_neg hb]
      have hne : l2 ≠ [] := by
        intro h0
        subst h0
        simp only [List.getLast?_singleton, Option.some.injEq] at hLast
        exact hb hLast
      have hrec := ih rest n
        (by rw [← getLast?_cons_of_ne_nil (b := b) hne]; exact hLast)
        (fun x hx => hMid x
          (by
            rw [List.dropLast_cons_of_ne_nil hne]
            exact List.mem_cons_of_mem b hx))
        (by simp only [List.length_cons] at hLen; omega)
      show (b :: (readlineCap n (l2 ++ rest)).1, (readlineCap n (l2 ++ rest)).2) =
        (b :: l2, rest)
      rw [hrec]

lemma serialLinesOld_yields (maxLen : Nat) :
    ∀ (lines : List (List Byte)) (acc : List (List Byte)),
      (∀ l ∈ lines, WfLine maxLen l) →
      serialLinesOld maxLen lines.length lines.flatten acc =
        ⟨acc.reverse ++ lines.map pyRstrip, Outcome.running⟩ := by
  intro lines
  induction lines with
  | nil =>
    intro acc _
    simp [serialLinesOld]
  | cons l lines2 ih =>
    intro acc h
    obtain ⟨h1, h2, h3⟩ := h l (List.mem_cons_self l lines2)
    simp only [List.length_cons, List.flatten_cons, serialLinesOld]
    rw [readlineCap_spec l lines2.flatten maxLen h1 h2 h3]
    show (if l.getLast? = some 10 then
        serialLinesOld maxLen lines2.length lines2.flatten (pyRstrip l :: acc)
      else ⟨acc.reverse, Outcome.overflow l⟩) =
      ⟨acc.reverse ++ pyRstrip l :: lines2.map pyRstrip, Outcome.running⟩
    rw [if_pos h1, ih (pyRstrip l :: acc) (fun q hq => h q (List.mem_cons_of_mem l hq))]
    simp

lemma deliversWithin_promptSteps (d : Int) (hd : 0 < d) :
    ∀ bs : List Byte, deliversWithin d (promptSteps bs) bs = true := by
  intro bs
  induction bs with
  | nil => rfl
  | cons b bs2 ih =>
    simp only [promptSteps, List.map_cons] at ih ⊢
    simp [deliversWithin, ih, hd]

lemma deliversLine_promptSteps (timeout : Int) (ht : 0 < timeout)
    (b : Byte) (bs : List Byte) :
    deliversLine timeout (promptSteps (b :: bs)) (b :: bs) = true := by
  have h1 := deliversWithin_promptSteps timeout ht bs
  simp only [promptSteps, List.map_cons] at h1 ⊢
  simp [deliversLine, ht, h1]

end SerialSamples

namespace SerialSamples

/-- Claim C3: every value returned by check_incomplete_line is either
None or a byte sequence whose last byte is the newline character, and
consequently the LineOverflowError raise branch of the shadowing
SerialLines generator is unreachable: no finite run of the producer
loop ever ends in the overflow outcome. -/
theorem claim_C3 :
    (∀ (timeout : Int) (maxLen : Nat) (steps : List Step) (l : List Byte)
        (rest : List Step),
      checkIncompleteLine timeout maxLen steps [] none = (some (some l), rest) →
      l.getLast? = some 10) ∧
    (∀ (timeout : Int) (maxLen fuel : Nat) (steps : List Step),
      ((serialLinesLoop timeout maxLen fuel steps []).outcome).isOverflow = false) :=
  ⟨fun timeout maxLen steps l rest h =>
      checkIncompleteLine_ret_last timeout maxLen steps [] none l rest h,
    fun timeout maxLen fuel steps =>
      serialLinesLoop_no_overflow timeout maxLen fuel steps []⟩

theorem claim_C3_witness :
    ([97, 10] : List Byte).getLast? = some 10 ∧
    ((serialLinesLoop 1 5 3 (promptSteps [97, 98, 99]) []).outcome).isOverflow = false :=
  ⟨claim_C3.1 1 5 (promptSteps [97, 10]) [97, 10] [] (by decide),
    claim_C3.2 1 5 3 (promptSteps [97, 98, 99])⟩

/-- Claim C7: whenever the accumulator returns the timed-out sentinel
(None), the producer loop continues with the remaining trace without
emitting a record and without raising: one loop round with a dismissal
is exactly the loop on the rest, with the yield accumulator
unchanged. -/
theorem claim_C7 (timeout : Int) (maxLen fuel : Nat)
    (steps rest : List Step) (acc : List (List Byte))
    (h : checkIncompleteLine timeout maxLen steps [] none = (some none, rest)) :
    serialLinesLoop timeout maxLen (fuel + 1) steps acc =
      serialLinesLoop timeout maxLen fuel rest acc := by
  simp only [serialLinesLoop]
  rw [h]

theorem claim_C7_witness :
    serialLinesLoop 1 5 1 [(⟨true, none, 0, 0⟩ : Step), ⟨true, none, 1, 1⟩] [] =
      serialLinesLoop 1 5 0 [] [] :=
  claim_C7 1 5 0 [⟨true, none, 0, 0⟩, ⟨true, none, 1, 1⟩] [] [] (by decide)

/-- Claim C9: starting from the empty buffer, the buffer length never
exceeds max_line_length at any loop-top state of the accumulation loop,
and every byte sequence returned by check_incomplete_line has length at
most max_line_length. -/
theorem claim_C9 (timeout : Int) (maxLen : Nat) (steps : List Step)
    (hpos : 0 < maxLen) :
    (∀ st ∈ accStates timeout maxLen steps [] none, st.1.length ≤ maxLen) ∧
    (∀ (l : List Byte) (rest : List Step),
      checkIncompleteLine timeout maxLen steps [] none = (some (some l), rest) →
      l.length ≤ maxLen) := by
  constructor
  · refine accStates_inv timeout maxLen (fun line et => line.length ≤ maxLen)
      steps [] none (by simp) ?_
    intro s hs lineA etA lineB etB hP hlen hA
    rcases acquireStep_cont timeout s lineA etA lineB etB hA with
      ⟨-, rfl, -⟩ | ⟨-, rfl, -⟩
    · exact hP
    · have := chunkBytes_length s.chunk
      simp only [List.length_append]
      omega
  · intro l rest h
    exact checkIncompleteLine_ret_len timeout maxLen steps [] none l rest (by simp) h

theorem claim_C9_witness : ([97, 10] : List Byte).length ≤ 5 :=
  (claim_C9 1 5 (promptSteps [97, 10]) (by decide)).2 [97, 10] [] (by decide)

/-- Claim C5, amended: end_time is set by the first loop iteration in
which the readiness check passes, whether or not that read returns a
byte; under the amended hypothesis that every read that happens
delivers at least one byte, no deadline exists at any reachable
loop-top state whose buffer is empty.  (The original claim, quantified
over all source behaviours including zero-byte reads, is refuted by
claim_C5_counterexample.) -/
theorem claim_C5 (timeout : Int) (maxLen : Nat) (steps : List Step)
    (h : ∀ s ∈ steps, s.readable = true → s.chunk ≠ none) :
    ∀ st ∈ accStates timeout maxLen steps [] none,
      st.1 = [] → st.2 = none := by
  refine accStates_inv timeout maxLen (fun line et => line = [] → et = none)
    steps [] none (fun _ => rfl) ?_
  intro s hs lineA etA lineB etB hP hlen hA
  rcases acquireStep_cont timeout s lineA etA lineB etB hA with
    ⟨-, rfl, rfl⟩ | ⟨hr, rfl, rfl⟩
  · exact hP
  · intro hB
    exfalso
    rcases hchunk : s.chunk with _ | b
    · exact h s hs hr hchunk
    · rw [hchunk] at hB
      simp [chunkBytes] at hB

theorem claim_C5_witness : (([] : List Byte), (none : Option Int)).2 = none :=
  claim_C5 1 5 [⟨true, some 97, 0, 0⟩] (by decide) ([], none) (by decide) rfl

/-- Claim C5, counterexample to the original statement: a first read
attempt that returns zero bytes sets the deadline while the buffer is
still empty; the state with empty buffer and deadline 1 is reachable in
one iteration from the initial state with timeout 1. -/
theorem claim_C5_counterexample :
    ((([] : List Byte), some (1 : Int)) ∈
      accStates 1 5 [⟨true, none, 0, 0⟩] [] none) := by decide

/-- Claim C4, amended: the deadline is re-checked on every iteration in
which the readiness check passes, including iterations whose read
returns zero bytes, so the inactivity timeout fires with zero bytes
arriving; a source that stays readable but delivers nothing is
dismissed once the clock reaches the deadline, the producer treats the
dismissal as a silent continue, and arbitrarily many such rounds yield
nothing and raise nothing.  (The original statement, which asserts the
re-check also on iterations where the readiness check fails, is refuted
by claim_C4_counterexample.) -/
theorem claim_C4 (timeout : Int) (maxLen : Nat) (t0 tc0 t1 tc1 : Int)
    (hpos : 0 < maxLen) (h1 : tc0 < t0 + timeout) (h2 : t0 + timeout ≤ tc1) :
    (∀ rest : List Step,
      checkIncompleteLine timeout maxLen
        (⟨true, none, t0, tc0⟩ :: ⟨true, none, t1, tc1⟩ :: rest) [] none =
        (some none, rest)) ∧
    (∀ (fuel : Nat) (acc : List (List Byte)) (rest : List Step),
      serialLinesLoop timeout maxLen (fuel + 1)
        (⟨true, none, t0, tc0⟩ :: ⟨true, none, t1, tc1⟩ :: rest) acc =
        serialLinesLoop timeout maxLen fuel rest acc) ∧
    (∀ (k : Nat) (acc : List (List Byte)),
      serialLinesLoop timeout maxLen k
        ((List.replicate k
          [(⟨true, none, t0, tc0⟩ : Step), ⟨true, none, t1, tc1⟩]).flatten) acc =
        ⟨acc.reverse, Outcome.running⟩) := by
  have key : ∀ rest : List Step,
      checkIncompleteLine timeout maxLen
        (⟨true, none, t0, tc0⟩ :: ⟨true, none, t1, tc1⟩ :: rest) [] none =
        (some none, rest) := by
    intro rest
    have hA1 : acquireStep timeout ⟨true, none, t0, tc0⟩ [] none =
        StepOut.cont [] (some (t0 + timeout)) := by
      simp [acquireStep, chunkBytes, not_le.mpr h1]
    have hA2 : acquireStep timeout ⟨true, none, t1, tc1⟩ [] (some (t0 + timeout)) =
        StepOut.ret none := by
      simp [acquireStep, chunkBytes, h2]
    simp only [checkIncompleteLine]
    rw [if_pos (by simpa using hpos), hA1]
    show checkIncompleteLine timeout maxLen (⟨true, none, t1, tc1⟩ :: rest) []
      (some (t0 + timeout)) = (some none, rest)
    simp only [checkIncompleteLine]
    rw [if_pos (by simpa using hpos), hA2]
  refine ⟨key, ?_, ?_⟩
  · intro fuel acc rest
    simp only [serialLinesLoop]
    rw [key rest]
  · intro k
    induction k with
    | zero =>
      intro acc
      simp [serialLinesLoop]
    | succ n ih =>
      intro acc
      simp only [List.replicate_succ, List.flatten_cons, List.cons_append,
        List.nil_append, serialLinesLoop]
      rw [key ((List.replicate n
        [(⟨true, none, t0, tc0⟩ : Step), ⟨true, none, t1, tc1⟩]).flatten)]
      exact ih acc

theorem claim_C4_witness :
    checkIncompleteLine 1 5
      [(⟨true, none, 0, 0⟩ : Step), ⟨true, none, 1, 1⟩] [] none = (some none, []) :=
  (claim_C4 1 5 0 0 1 1 (by decide) (by decide) (by decide)).1 []

/-- Claim C4, counterexample to the original statement: after a first
byte at clock 0 with timeout 1, ten further iterations in which the
readiness check fails, each with the clock at 100 (far past the
deadline 1), perform no deadline check and produce no dismissal: the
accumulator is still looping when the trace ends, so the inactivity
timeout did not fire on those iterations. -/
theorem claim_C4_counterexample :
    checkIncompleteLine 1 5
      (⟨true, some 97, 0, 0⟩ :: List.replicate 10 (⟨false, none, 100, 100⟩ : Step))
      [] none = (none, []) := by decide

end SerialSamples

namespace SerialSamples

/-- Claim C1, amended: for every input whose synchronization phase
terminates and whose post-synchronization trace delivers a sequence of
well-shaped lines (each at most max_line_length bytes including the
newline) such that each line arrives entirely before the fixed deadline
set at its first byte, the generator yields exactly those lines, in
order, with no drops and no duplicates, each stripped of its trailing
newline and trailing whitespace.  (The original per-gap hypothesis,
that every byte arrives within timeout of the previous one, is refuted
by claim_C1_counterexample.) -/
theorem claim_C1 (timeout : Int) (maxLen : Nat) (chunks : List (List Byte))
    (tl : List (List Step × List Byte))
    (hsync : skipUntilNewLine chunks ≠ none)
    (hwf : ∀ p ∈ tl, wellTimedLine timeout maxLen p = true) :
    serialLines timeout maxLen chunks ((tl.map Prod.fst).flatten) tl.length =
      some ⟨tl.map (fun p => pyRstrip p.2), Outcome.running⟩ := by
  rcases hsk : skipUntilNewLine chunks with _ | rest
  · exact absurd hsk hsync
  · simp only [serialLines, hsk]
    rw [serialLinesLoop_yields timeout maxLen tl [] hwf]
    simp

theorem claim_C1_witness :
    serialLines 1 5 [[10]]
      [(⟨true, some 97, 0, 0⟩ : Step), ⟨true, some 10, 0, 0⟩] 1 =
      some ⟨[[97]], Outcome.running⟩ :=
  claim_C1 1 5 [[10]] [([⟨true, some 97, 0, 0⟩, ⟨true, some 10, 0, 0⟩], [97, 10])]
    (by decide) (by decide)

/-- Claim C1, counterexample to the original statement: the stream
after synchronization carries the single line of bytes 97 98 99 10,
well below max_line_length 10, and every byte (read and check clocks
alike) arrives within 1 of the previous one, below the timeout 2; yet
the generator does not yield that line: the fixed deadline set at the
first byte expires mid-line, bytes 97 98 99 are dismissed, and the
leftover newline is framed as an empty record, so the produced sequence
is one empty record instead of the stream line. -/
theorem claim_C1_counterexample :
    serialLines 2 10 [[10]]
      [⟨true, some 97, 0, 0⟩, ⟨true, some 98, 1, 1⟩, ⟨true, some 99, 2, 2⟩,
        ⟨true, some 10, 3, 3⟩] 2 = some ⟨[[]], Outcome.running⟩ ∧
    List.Chain' (fun a b => b.tRead - a.tRead < 2 ∧ b.tCheck - a.tCheck < 2)
      [(⟨true, some 97, 0, 0⟩ : Step), ⟨true, some 98, 1, 1⟩, ⟨true, some 99, 2, 2⟩,
        ⟨true, some 10, 3, 3⟩] ∧
    ([97, 98, 99, 10] : List Byte).length ≤ 10 := by
  refine ⟨by decide, ?_, by decide⟩
  simp only [List.chain'_cons, List.chain'_singleton]
  decide

/-- Claim C2: the spec (and the docstring and the dead raise branch of
the shadowing generator itself) require a Line Overflow error on a line
longer than max_line_length; the code instead has check_incomplete_line
fall off its loop returning the None sentinel at the length cap, which
the producer swallows as a silent retry.  With max_line_length 5 and
post-synchronization input bytes 97 98 99 100 101 102 10, the
accumulator returns None after the first five bytes, the producer
continues, frames the leftover bytes 102 10 as a line, yields the
record 102, and never raises: the run ends blocked, not in overflow. -/
theorem claim_C2_bug :
    checkIncompleteLine 1 5 (promptSteps [97, 98, 99, 100, 101, 102, 10]) [] none =
      (some none, promptSteps [102, 10]) ∧
    serialLinesLoop 1 5 3 (promptSteps [97, 98, 99, 100, 101, 102, 10]) [] =
      ⟨[[102]], Outcome.blocked⟩ :=
  ⟨by decide, by decide⟩

/-- Claim C6, amended: completion is governed by the fixed deadline
computed once at the first byte of the line, not by per-gap checks: a
line completes whenever its trace delivers the bytes with every
deadline check before the final newline strictly below first-read-time
plus timeout, and the newline itself may arrive arbitrarily late after
the last check.  (The original per-gap statement is refuted by
claim_C6_counterexample.) -/
theorem claim_C6 (timeout : Int) (maxLen : Nat) (bs : List Byte)
    (ss rest : List Step)
    (hDel : deliversLine timeout ss bs = true)
    (hLast : bs.getLast? = some 10)
    (hMid : ∀ b ∈ bs.dropLast, b ≠ 10)
    (hLen : bs.length ≤ maxLen) :
    checkIncompleteLine timeout maxLen (ss ++ rest) [] none =
      (some (some bs), rest) :=
  line_completes timeout maxLen bs ss rest hDel hLast hMid hLen

theorem claim_C6_witness :
    checkIncompleteLine 1 10
      [(⟨true, some 97, 0, 0⟩ : Step), ⟨true, some 10, 100, 100⟩] [] none =
      (some (some [97, 10]), []) :=
  claim_C6 1 10 [97, 10] [⟨true, some 97, 0, 0⟩, ⟨true, some 10, 100, 100⟩] []
    (by decide) (by decide) (by decide) (by decide)

/-- Claim C6, counterexample to the original statement: bytes 97 98 99
arrive one at a time with every gap 2, strictly below the timeout 3,
and the newline is next in the trace; yet the accumulator dismisses the
line (returns the None sentinel) at the third byte because the fixed
deadline set at the first byte has passed, so the line does not
complete even though no single gap reached the timeout. -/
theorem claim_C6_counterexample :
    checkIncompleteLine 3 10
      [⟨true, some 97, 0, 0⟩, ⟨true, some 98, 2, 2⟩, ⟨true, some 99, 4, 4⟩,
        ⟨true, some 10, 6, 6⟩] [] none =
      (some none, [⟨true, some 10, 6, 6⟩]) ∧
    List.Chain' (fun a b => b.tRead - a.tRead < 3 ∧ b.tCheck - a.tCheck < 3)
      [(⟨true, some 97, 0, 0⟩ : Step), ⟨true, some 98, 2, 2⟩, ⟨true, some 99, 4, 4⟩,
        ⟨true, some 10, 6, 6⟩] := by
  refine ⟨by decide, ?_⟩
  simp only [List.chain'_cons, List.chain'_singleton]
  decide

/-- Claim C8: the boundary synchronizer terminates exactly on the first
bounded read whose returned chunk ends with a newline byte, consuming
precisely the chunks up to and including that one; the consumed prefix
of the stream therefore ends with a newline, so the accumulation phase
(and hence the first yielded line) starts exactly at a post-newline
byte boundary; and none of the skipped bytes influence the produced
records, which depend only on the post-synchronization trace. -/
theorem claim_C8 (pre post : List (List Byte)) (c : List Byte)
    (hpre : ∀ d ∈ pre, d.getLast? ≠ some 10)
    (hc : c.getLast? = some 10) :
    skipUntilNewLine (pre ++ c :: post) = some post ∧
    ((pre ++ [c]).flatten).getLast? = some 10 ∧
    (∀ (timeout : Int) (maxLen fuel : Nat) (steps : List Step),
      serialLines timeout maxLen (pre ++ c :: post) steps fuel =
        some (serialLinesLoop timeout maxLen fuel steps [])) := by
  have hsk := skipUntilNewLine_spec pre c post hpre hc
  refine ⟨hsk, flatten_concat_getLast pre c hc, ?_⟩
  intro timeout maxLen fuel steps
  simp [serialLines, hsk]

theorem claim_C8_witness :
    skipUntilNewLine [[97], [98, 10], [99]] = some [[99]] ∧
    (([[97], [98, 10]] : List (List Byte)).flatten).getLast? = some 10 ∧
    serialLines 1 5 [[97], [98, 10], [99]] (promptSteps [99, 10]) 1 =
      some (serialLinesLoop 1 5 1 (promptSteps [99, 10]) []) := by
  have h := claim_C8 [[97]] [[99]] [98, 10] (by decide) (by decide)
  exact ⟨h.1, h.2.1, h.2.2 1 5 1 (promptSteps [99, 10])⟩

/-- Claim C10, amended: on streams all of whose lines are well shaped
and fit in max_line_length, the byte-by-byte timeout-aware SerialLines
(with prompt byte delivery and any positive timeout) and the earlier
readline-based SerialLines it shadows produce the same yielded sequence
and the same terminal outcome.  The shadowing version does not strictly
extend the readline-based one: on a stream with an over-long line the
readline-based version raises Line Overflow while the shadowing version
yields different records and never raises, as claim_C10_counterexample
shows. -/
theorem claim_C10 (timeout : Int) (maxLen : Nat) (ht : 0 < timeout)
    (lines : List (List Byte)) (h : ∀ l ∈ lines, WfLine maxLen l) :
    serialLinesOld maxLen lines.length lines.flatten [] =
      ⟨lines.map pyRstrip, Outcome.running⟩ ∧
    serialLinesLoop timeout maxLen lines.length (promptSteps lines.flatten) [] =
      ⟨lines.map pyRstrip, Outcome.running⟩ := by
  constructor
  · rw [serialLinesOld_yields maxLen lines [] h]
    simp
  · have hwf : ∀ p ∈ lines.map (fun l => (promptSteps l, l)),
        wellTimedLine timeout maxLen p = true := by
      intro p hp
      simp only [List.mem_map] at hp
      obtain ⟨l, hl, rfl⟩ := hp
      obtain ⟨h1, h2, h3⟩ := h l hl
      have hne : l ≠ [] := by
        intro h0
        subst h0
        simp at h1
      obtain ⟨b, bs, rfl⟩ := List.exists_cons_of_ne_nil hne
      simp only [wellTimedLine, Bool.and_eq_true, beq_iff_eq, List.all_eq_true,
        Bool.not_eq_eq_eq_not, Bool.not_true, beq_eq_false_iff_ne, ne_eq,
        decide_eq_true_eq]
      exact ⟨⟨⟨deliversLine_promptSteps timeout ht b bs, h1⟩, h2⟩, h3⟩
    have hy := serialLinesLoop_yields timeout maxLen
      (lines.map (fun l => (promptSteps l, l))) [] hwf
    have hsteps : ((lines.map (fun l => (promptSteps l, l))).map Prod.fst).flatten =
        promptSteps lines.flatten := by
      simp only [List.map_map, promptSteps, List.map_flatten]
      rfl
    rw [hsteps, List.length_map] at hy
    rw [hy]
    simp [List.map_map, Function.comp]

theorem claim_C10_witness :
    serialLinesOld 5 2 [97, 10, 98, 32, 10] [] =
      ⟨[[97], [98]], Outcome.running⟩ ∧
    serialLinesLoop 1 5 2 (promptSteps [97, 10, 98, 32, 10]) [] =
      ⟨[[97], [98]], Outcome.running⟩ :=
  claim_C10 1 5 (by decide) [[97, 10], [98, 32, 10]]
    (by
      intro l hl
      simp only [List.mem_cons, List.not_mem_nil, or_false] at hl
      rcases hl with rfl | rfl
      · exact ⟨by decide, by decide, by decide⟩
      · exact ⟨by decide, by decide, by decide⟩)

/-- Claim C10, counterexample to the original statement: on the stream
of bytes 97 98 99 100 101 102 10 with max_line_length 5, the
readline-based version raises Line Overflow with the truncated line
97 98 99 100 101 and yields nothing, while the shadowing timeout-aware
version (prompt delivery, so no timeout constraint binds) yields the
record 102 and never raises; the two disagree on both the yielded
sequence and the terminal outcome, so the shadowing version is not an
extension of the readline-based one. -/
theorem claim_C10_counterexample :
    serialLinesOld 5 2 [97, 98, 99, 100, 101, 102, 10] [] =
      ⟨[], Outcome.overflow [97, 98, 99, 100, 101]⟩ ∧
    serialLinesLoop 1 5 2 (promptSteps [97, 98, 99, 100, 101, 102, 10]) [] =
      ⟨[[102]], Outcome.running⟩ :=
  ⟨by decide, by decide⟩

end SerialSamples
